import Mathlib

/-!
Verification of the FastAPI arithmetic-endpoint example
(src/examples/python/simple_fastapi_example.py).

The Python file exposes one endpoint, POST /calculate, orchestrating
validation, aggregation (sum / average / count) and error translation.
We embed the functions shallowly:

* Python ints are `ℤ` (arbitrary precision), lists are `List ℤ`.
* Python float true-division of two ints (`total / len(data)`) is the
  correctly rounded IEEE-754 binary64 value of the exact quotient,
  modelled over `ℚ` via round-half-to-even at 53 bits of precision
  (subnormal results round at fixed exponent -1074), raising
  OverflowError when the rounded magnitude reaches 2^1024 — this is
  exactly CPython's long_true_divide.
* Python `int()` on a float truncates toward zero.
* `raise`/`except` becomes `Except PyErr`; a Starlette `HTTPException`
  turns into a `PyErr` whose `str()` is "<status>: <detail>", and an
  uncaught `HTTPException` becomes the HTTP response with its status
  and detail.
* `async` is a free program with explicit `sleep` nodes, run by a
  semantics that accumulates suspension time next to the value.
-/

namespace SimpleFastapiExample

/-- A Python exception value, identified by its `str()` message. -/
structure PyErr where
  msg : String
deriving DecidableEq

/-- CPython's OverflowError raised by int / int true division when the
correctly rounded quotient is too large for a binary64 float. -/
def overflowError : PyErr := ⟨"integer division result too large for a float"⟩

instance {ε α : Type} [DecidableEq ε] [DecidableEq α] : DecidableEq (Except ε α) := fun x y =>
  match x, y with
  | .ok a, .ok b => if h : a = b then .isTrue (by rw [h]) else .isFalse (by simp [h])
  | .error a, .error b => if h : a = b then .isTrue (by rw [h]) else .isFalse (by simp [h])
  | .ok _, .error _ => .isFalse (by simp)
  | .error _, .ok _ => .isFalse (by simp)

/-- The str() of a Starlette/FastAPI HTTPException: "<status_code>: <detail>". -/
def httpExceptionStr (statusCode : ℕ) (detail : String) : String :=
  toString statusCode ++ ": " ++ detail

/-- Round a rational to the nearest integer, ties to the even integer
(IEEE-754 roundTiesToEven applied to the scaled significand). -/
def roundHalfEven (x : ℚ) : ℤ :=
  if x - ⌊x⌋ < 1 / 2 then ⌊x⌋
  else if 1 / 2 < x - ⌊x⌋ then ⌊x⌋ + 1
  else if Even ⌊x⌋ then ⌊x⌋ else ⌊x⌋ + 1

/-- Power 2^t by binary splitting (structural fuel recursion, exact once the
fuel reaches t; depth is logarithmic in t). -/
def powTwoF : ℕ → ℕ → ℕ
  | 0, _ => 1
  | f + 1, t =>
    if t = 0 then 1
    else powTwoF f (t / 2) ^ 2 * (if t % 2 = 1 then 2 else 1)

/-- Power 2^t, computed with logarithmic recursion depth. -/
def powTwo (t : ℕ) : ℕ := powTwoF t t

/-- Power 2^t over ℚ for a signed exponent. -/
def qpow2 (t : ℤ) : ℚ :=
  if 0 ≤ t then (powTwo t.toNat : ℚ) else ((powTwo (-t).toNat : ℚ))⁻¹

/-- Floor of log2 for n below 2^fuel, by repeated halving. -/
def microLog2F : ℕ → ℕ → ℕ
  | 0, _ => 0
  | f + 1, n => if n < 2 then 0 else microLog2F f (n / 2) + 1

/-- Floor of log2 (fuel-based, exact once the fuel reaches n): strips
64 bits per step, then finishes with the halving loop, so reduction
depth stays shallow even for numbers with thousands of bits. -/
def natLog2F : ℕ → ℕ → ℕ
  | 0, _ => 0
  | f + 1, n =>
    if n < 18446744073709551616 then microLog2F 64 n
    else natLog2F f (n / 18446744073709551616) + 64

/-- Floor of log2 of a positive natural. -/
def natLog2 (n : ℕ) : ℕ := natLog2F n n

/-- Least k with b ≤ a * 2^k (fuel-based, exact once the fuel
reaches b). -/
def ceilLog2F : ℕ → ℕ → ℕ → ℕ
  | 0, _, _ => 0
  | f + 1, a, b => if b ≤ a then 0 else ceilLog2F f (2 * a) b + 1

/-- Floor of log2 of the positive rational a / b. -/
def ratLog2 (a b : ℕ) : ℤ :=
  if b ≤ a then (natLog2 (a / b) : ℤ) else -(ceilLog2F b a b : ℤ)

/-- Floor of log2 of a positive rational. -/
def floatLog2 (q : ℚ) : ℤ := ratLog2 q.num.toNat q.den

/-- Exponent of the least significant retained bit when rounding a
positive rational to binary64: 53 significant bits for normal values,
fixed scale 2^-1074 below the normal range. -/
def floatExp (q : ℚ) : ℤ := max (floatLog2 q - 52) (-1074)

/-- Correctly rounded binary64 value of a positive rational (unbounded
above; the overflow cutoff is applied by the caller). -/
def roundToDouble (q : ℚ) : ℚ :=
  (roundHalfEven (q / qpow2 (floatExp q)) : ℚ) * qpow2 (floatExp q)

/-- Value of CPython's int / int true division for a non-negative
numerator and positive denominator, before the overflow check. -/
def pyDivPos (a b : ℕ) : ℚ :=
  if a = 0 then 0 else roundToDouble ((a : ℚ) / (b : ℚ))

/-- Value of CPython's int / int true division with the sign put back
(rounding to nearest is symmetric around zero). -/
def pyDivSigned (a : ℤ) (b : ℕ) : ℚ :=
  if a < 0 then -pyDivPos a.natAbs b else pyDivPos a.natAbs b

/-- The constant 2^1024, the overflow cutoff of binary64, written out in decimal so
that comparisons against it evaluate digit-wise instead of by unary
unfolding of the exponent (`twoPow1024_eq` below proves it is 2^1024). -/
def twoPow1024 : ℕ := 179769313486231590772930519078902473361797697894230657273430081157732675805500963132708477322407536021120113879871393357658789768814416622492847430639474124377767893424865485276302219601246094119453082952085005768838150682342462881473913110540827237163350510684586298239947245938479716304835356329624224137216

/-- CPython int / int true division (`long_true_divide`): the correctly
rounded binary64 quotient, or OverflowError when its magnitude reaches
2^1024. -/
def pyTrueDiv (a : ℤ) (b : ℕ) : Except PyErr ℚ :=
  if (twoPow1024 : ℚ) ≤ |pyDivSigned a b| then .error overflowError
  else .ok (pyDivSigned a b)

/-- Python `int()` applied to a (real-valued) float: truncation toward
zero. -/
def pyInt (x : ℚ) : ℤ := if x < 0 then -⌊-x⌋ else ⌊x⌋

/-- The dict built by `process_data_async`:
`{"total": total, "average": int(average), "count": len(data)}`. -/
structure AggResult where
  total : ℤ
  average : ℤ
  count : ℕ
deriving DecidableEq

/-- Python calculate_sum(numbers): sum(numbers). -/
def calculate_sum (numbers : List ℤ) : ℤ := numbers.sum

/-- Python validate_input(numbers): False on an empty list, False when any
element is negative, True otherwise. -/
def validate_input (numbers : List ℤ) : Bool :=
  if numbers.isEmpty then false
  else if numbers.any fun n => n < 0 then false
  else true

/-- Value semantics of `process_data_async(data)` (the part after the
`asyncio.sleep`): `total = calculate_sum(data)`;
`average = total / len(data) if data else 0` (float division, which can
raise OverflowError); returns the result dict with `int(average)`. -/
def process_data (data : List ℤ) : Except PyErr AggResult :=
  match (if data.isEmpty then Except.ok 0
         else pyTrueDiv (calculate_sum data) data.length) with
  | .error e => .error e
  | .ok average =>
      .ok { total := calculate_sum data, average := pyInt average,
            count := data.length }

/-- A cooperative asynchronous program: a value, possibly behind
explicit suspensions of given durations (seconds). -/
inductive AsyncProg (α : Type) where
  | ret (value : α)
  | sleep (seconds : ℚ) (rest : AsyncProg α)

/-- Run an asynchronous program: total time spent suspended, paired
with the produced value. -/
def runAsync {α : Type} : AsyncProg α → ℚ × α
  | .ret v => (0, v)
  | .sleep s rest => ((runAsync rest).1 + s, (runAsync rest).2)

/-- Erase every suspension from an asynchronous program. -/
def dropSleeps {α : Type} : AsyncProg α → AsyncProg α
  | .ret v => .ret v
  | .sleep _ rest => dropSleeps rest

/-- Python process_data_async(data) as written: await asyncio.sleep(0.1),
then the aggregation. -/
def process_data_async (data : List ℤ) : AsyncProg (Except PyErr AggResult) :=
  .sleep (1 / 10) (.ret (process_data data))

/-- HTTP outcome of the endpoint: 200 with the success envelope
`{"status": "success", "data": result}`, or an error status with a
detail string (FastAPI's rendering of an uncaught HTTPException). -/
inductive Response where
  | success (data : AggResult)
  | httpError (statusCode : ℕ) (detail : String)
deriving DecidableEq

/-- Detail of the HTTPException built on validation failure. -/
def invalidInputDetail : String := "Invalid input: empty list or negative numbers"

/-- Python calculate_endpoint(numbers) with the aggregation step as a
parameter.  The whole body is one `try` block: the 400 HTTPException
raised on validation failure, like any exception out of aggregation, is
caught by `except Exception as e` and re-raised as
HTTPException(500, "Calculation failed: " + str(e)). -/
def calculate_endpoint_with
    (agg : List ℤ → Except PyErr AggResult) (numbers : List ℤ) : Response :=
  match (if validate_input numbers = false then
          Except.error ⟨httpExceptionStr 400 invalidInputDetail⟩
         else
          match agg numbers with
          | .error e => .error e
          | .ok result => Except.ok (Response.success result)) with
  | .ok r => r
  | .error e => .httpError 500 ("Calculation failed: " ++ e.msg)

/-- Python calculate_endpoint(numbers): validation, then
`await process_data_async(numbers)`, with the try/except translation. -/
def calculate_endpoint (numbers : List ℤ) : Response :=
  calculate_endpoint_with (fun data => (runAsync (process_data_async data)).2) numbers

/-- The two traced steps the endpoint body can take. -/
inductive CallEv where
  | validateCall
  | aggregateCall
deriving DecidableEq

/-- Calls made by the endpoint body, in order: `validate_input` always
runs; `process_data_async` runs exactly when validation succeeded. -/
def endpointCalls (numbers : List ℤ) : List CallEv :=
  if validate_input numbers then [.validateCall, .aggregateCall] else [.validateCall]

/-- Python repr of the result dict, as interpolated into the log. -/
def showAggResult (r : AggResult) : String :=
  "\x7b'total': " ++ toString r.total ++ ", 'average': " ++ toString r.average ++
    ", 'count': " ++ toString r.count ++ "\x7d"

/-- Log lines emitted by `validate_input`. -/
def validateLogLines (numbers : List ℤ) : List String :=
  "Validating input data" ::
    (if numbers.isEmpty then ["Empty input provided"]
     else if numbers.any fun n => n < 0 then ["Negative numbers found in input"]
     else ["Input validation passed"])

/-- Log lines emitted by `calculate_sum`. -/
def calculateSumLogLines (numbers : List ℤ) : List String :=
  ["Calculating sum of " ++ toString numbers.length ++ " numbers",
   "Sum calculated: " ++ toString (calculate_sum numbers)]

/-- Log lines emitted by `process_data_async` (the completion line is
not reached when the division raises). -/
def processDataLogLines (data : List ℤ) : List String :=
  "Starting async data processing" :: calculateSumLogLines data ++
    (match process_data data with
     | .error _ => []
     | .ok r => ["Data processing completed: " ++ showAggResult r])

/-- All log lines emitted while serving one request. -/
def endpointLogLines (numbers : List ℤ) : List String :=
  ("Calculate endpoint called with " ++ toString numbers.length ++ " numbers") ::
    validateLogLines numbers ++
    (if validate_input numbers = false then
      ["Error in calculation: " ++ httpExceptionStr 400 invalidInputDetail]
    else
      processDataLogLines numbers ++
        match process_data numbers with
        | .error e => ["Error in calculation: " ++ e.msg]
        | .ok _ => ["Calculation completed successfully"])

/-- Serving one request against the only module-level mutable state the
handler touches (the process-wide log): the response and the new state. -/
def handle_request (log : List String) (numbers : List ℤ) : Response × List String :=
  (calculate_endpoint numbers, log ++ endpointLogLines numbers)

/-- The CPython heap slice relevant here: the store of list objects. -/
abbrev PyHeap := List (List ℤ)

/-- Dereference a list object. -/
def heapRead (heap : PyHeap) (r : ℕ) : List ℤ := heap.getD r []

/-- Function validate_input acting on a heap reference: it only reads
(truthiness test and iteration), so the heap is returned as received. -/
def validate_input_st (heap : PyHeap) (r : ℕ) : Bool × PyHeap :=
  (validate_input (heapRead heap r), heap)

/-- Function calculate_sum acting on a heap reference: len and sum are
reads, so the heap is returned as received. -/
def calculate_sum_st (heap : PyHeap) (r : ℕ) : ℤ × PyHeap :=
  (calculate_sum (heapRead heap r), heap)

/-- Function process_data_async acting on a heap reference: len, sum and
division are reads, so the heap is returned as received. -/
def process_data_st (heap : PyHeap) (r : ℕ) : Except PyErr AggResult × PyHeap :=
  (process_data (heapRead heap r), heap)

/-! ## General lemmas about the embedding -/

/-- Awaiting `process_data_async` produces exactly the value of the
aggregation. -/
theorem runAsync_process_data_async (data : List ℤ) :
    (runAsync (process_data_async data)).2 = process_data data := rfl

set_option exponentiation.threshold 1200 in
/-- The decimal expansion defining the overflow cutoff is 2^1024. -/
theorem twoPow1024_eq : twoPow1024 = 2 ^ 1024 := by
  unfold twoPow1024
  norm_num

set_option exponentiation.threshold 1200 in
/-- The overflow cutoff, as a rational. -/
theorem twoPow1024_cast : (twoPow1024 : ℚ) = 2 ^ 1024 := by
  rw [twoPow1024_eq]
  push_cast
  norm_num

/-- The floor of a quotient of naturals is their natural division. -/
theorem floor_natCast_div (a b : ℕ) (hb : 0 < b) :
    ⌊(a : ℚ) / (b : ℚ)⌋ = ((a / b : ℕ) : ℤ) := by
  have hb' : (0 : ℚ) < b := by exact_mod_cast hb
  rw [Int.floor_eq_iff]
  constructor
  · rw [le_div_iff₀ hb']
    exact_mod_cast Nat.div_mul_le_self a b
  · rw [div_lt_iff₀ hb']
    have h1 : a < (a / b + 1) * b := by
      have h2 := Nat.div_add_mod a b
      have h3 := Nat.mod_lt a hb
      calc a = b * (a / b) + a % b := h2.symm
        _ < b * (a / b) + b := by omega
        _ = (a / b + 1) * b := by ring
    exact_mod_cast h1

/-- The binary-splitting power agrees with 2^t once the fuel covers the
exponent. -/
theorem powTwoF_eq (f : ℕ) : ∀ t : ℕ, t ≤ f → powTwoF f t = 2 ^ t := by
  induction f with
  | zero =>
    intro t ht
    have h0 : t = 0 := by omega
    subst h0
    rfl
  | succ f ih =>
    intro t ht
    by_cases ht0 : t = 0
    · subst ht0
      simp [powTwoF]
    · simp only [powTwoF]
      rw [if_neg ht0, ih (t / 2) (by omega), ← pow_mul]
      by_cases hm : t % 2 = 1
      · rw [if_pos hm, ← pow_succ]
        congr 1
        omega
      · rw [if_neg hm, mul_one]
        congr 1
        omega

/-- The binary-splitting power is 2^t. -/
theorem powTwo_eq (t : ℕ) : powTwo t = 2 ^ t := powTwoF_eq t t le_rfl

/-- The signed power is the usual zpow on ℚ. -/
theorem qpow2_eq (t : ℤ) : qpow2 t = (2 : ℚ) ^ t := by
  unfold qpow2
  by_cases h : 0 ≤ t
  · rw [if_pos h, powTwo_eq]
    push_cast
    rw [← zpow_natCast (2 : ℚ), Int.toNat_of_nonneg h]
  · rw [if_neg h, powTwo_eq]
    push_cast
    rw [← zpow_natCast (2 : ℚ), Int.toNat_of_nonneg (by omega), ← zpow_neg, neg_neg]

/-- The halving loop computes the floor of log2 below 2^fuel. -/
theorem microLog2F_spec (f : ℕ) : ∀ n : ℕ, 1 ≤ n → n < 2 ^ f →
    2 ^ microLog2F f n ≤ n ∧ n < 2 ^ (microLog2F f n + 1) := by
  induction f with
  | zero =>
    intro n h1 h2
    simp only [pow_zero] at h2
    omega
  | succ f ih =>
    intro n h1 h2
    by_cases hn : n < 2
    · simp only [microLog2F]
      rw [if_pos hn]
      constructor
      · simpa using h1
      · simpa using hn
    · simp only [microLog2F]
      rw [if_neg hn]
      have h3 : 1 ≤ n / 2 := by omega
      have h4 : n / 2 < 2 ^ f := by
        rw [pow_succ] at h2
        omega
      obtain ⟨ih1, ih2⟩ := ih (n / 2) h3 h4
      constructor
      · rw [pow_succ]
        omega
      · rw [pow_succ]
        omega

/-- The 64-bit-stripping loop computes the floor of log2 once the fuel
reaches n. -/
theorem natLog2F_spec (f : ℕ) : ∀ n : ℕ, 1 ≤ n → n ≤ f →
    2 ^ natLog2F f n ≤ n ∧ n < 2 ^ (natLog2F f n + 1) := by
  induction f with
  | zero =>
    intro n h1 h2
    omega
  | succ f ih =>
    intro n h1 h2
    by_cases hn : n < 18446744073709551616
    · simp only [natLog2F]
      rw [if_pos hn]
      exact microLog2F_spec 64 n h1 (by norm_num; omega)
    · simp only [natLog2F]
      rw [if_neg hn]
      have h3 : 1 ≤ n / 18446744073709551616 := by omega
      have h4 : n / 18446744073709551616 ≤ f := by omega
      obtain ⟨ih1, ih2⟩ := ih _ h3 h4
      constructor
      · calc 2 ^ (natLog2F f (n / 18446744073709551616) + 64)
            = 2 ^ natLog2F f (n / 18446744073709551616) * 18446744073709551616 := by
              rw [pow_add]
              norm_num
          _ ≤ n / 18446744073709551616 * 18446744073709551616 :=
              Nat.mul_le_mul_right _ ih1
          _ ≤ n := Nat.div_mul_le_self n _
      · calc n < (n / 18446744073709551616 + 1) * 18446744073709551616 := by omega
          _ ≤ 2 ^ (natLog2F f (n / 18446744073709551616) + 1) * 18446744073709551616 :=
              Nat.mul_le_mul_right _ (by omega)
          _ = 2 ^ (natLog2F f (n / 18446744073709551616) + 64 + 1) := by
              rw [pow_add, pow_add, pow_add]
              norm_num
              ring

/-- The floor of log2 of a positive natural. -/
theorem natLog2_spec (n : ℕ) (h : 1 ≤ n) :
    2 ^ natLog2 n ≤ n ∧ n < 2 ^ (natLog2 n + 1) := natLog2F_spec n n h le_rfl

/-- The doubling loop finds the least k with b ≤ a * 2^k once the fuel
admits one. -/
theorem ceilLog2F_spec (f : ℕ) : ∀ a b : ℕ, 1 ≤ a → b ≤ a * 2 ^ f →
    b ≤ a * 2 ^ ceilLog2F f a b ∧ (a < b → a * 2 ^ ceilLog2F f a b < 2 * b) := by
  induction f with
  | zero =>
    intro a b h1 h2
    simp only [pow_zero, mul_one] at h2
    constructor
    · simpa [ceilLog2F] using h2
    · intro hab
      omega
  | succ f ih =>
    intro a b h1 h2
    by_cases hba : b ≤ a
    · simp only [ceilLog2F]
      rw [if_pos hba]
      constructor
      · simpa using hba
      · intro hab
        omega
    · simp only [ceilLog2F]
      rw [if_neg hba]
      have h2' : b ≤ 2 * a * 2 ^ f := by
        rw [pow_succ] at h2
        linarith
      obtain ⟨ihl, ihu⟩ := ih (2 * a) b (by omega) h2'
      constructor
      · rw [pow_succ]
        calc b ≤ 2 * a * 2 ^ ceilLog2F f (2 * a) b := ihl
          _ = a * (2 ^ ceilLog2F f (2 * a) b * 2) := by ring
      · intro hab
        rw [pow_succ]
        by_cases hb2 : b ≤ 2 * a
        · have hk0 : ceilLog2F f (2 * a) b = 0 := by
            cases f with
            | zero => rfl
            | succ g =>
              simp only [ceilLog2F]
              rw [if_pos hb2]
          rw [hk0]
          simp only [pow_zero, one_mul]
          omega
        · have ihu' := ihu (by omega)
          calc a * (2 ^ ceilLog2F f (2 * a) b * 2)
              = 2 * a * 2 ^ ceilLog2F f (2 * a) b := by ring
            _ < 2 * b := ihu'

/-- The rational floor-log2 brackets a / b between consecutive powers
of two. -/
theorem ratLog2_spec (a b : ℕ) (ha : 1 ≤ a) (hb : 1 ≤ b) :
    (2 : ℚ) ^ ratLog2 a b ≤ (a : ℚ) / b ∧ (a : ℚ) / b < 2 ^ (ratLog2 a b + 1) := by
  have hb' : (0 : ℚ) < b := by exact_mod_cast hb
  unfold ratLog2
  by_cases hba : b ≤ a
  · rw [if_pos hba]
    obtain ⟨hl, hu⟩ := natLog2_spec (a / b) ((Nat.one_le_div_iff (by omega)).mpr hba)
    have hfl := floor_natCast_div a b (by omega)
    have hle : ((a / b : ℕ) : ℚ) ≤ (a : ℚ) / b := by
      have h := Int.floor_le ((a : ℚ) / b)
      rw [hfl] at h
      exact_mod_cast h
    have hlt : (a : ℚ) / b < ((a / b : ℕ) : ℚ) + 1 := by
      have h := Int.lt_floor_add_one ((a : ℚ) / b)
      rw [hfl] at h
      exact_mod_cast h
    constructor
    · rw [zpow_natCast]
      calc ((2 : ℚ)) ^ natLog2 (a / b) = ((2 ^ natLog2 (a / b) : ℕ) : ℚ) := by push_cast; ring
        _ ≤ ((a / b : ℕ) : ℚ) := by exact_mod_cast hl
        _ ≤ (a : ℚ) / b := hle
    · rw [show ((natLog2 (a / b) : ℤ) + 1) = ((natLog2 (a / b) + 1 : ℕ) : ℤ) by push_cast; ring,
        zpow_natCast]
      calc (a : ℚ) / b < ((a / b : ℕ) : ℚ) + 1 := hlt
        _ ≤ ((2 ^ (natLog2 (a / b) + 1) : ℕ) : ℚ) := by exact_mod_cast hu
        _ = (2 : ℚ) ^ (natLog2 (a / b) + 1) := by push_cast; ring
  · rw [if_neg hba]
    have hfuel : b ≤ a * 2 ^ b := by
      calc b ≤ 2 ^ b := (Nat.lt_two_pow b).le
        _ ≤ a * 2 ^ b := by nlinarith [pow_pos (by norm_num : (0:ℕ) < 2) b]
    obtain ⟨hl, hu⟩ := ceilLog2F_spec b a b ha hfuel
    have hs : (0 : ℚ) < 2 ^ ceilLog2F b a b := by positivity
    constructor
    · rw [zpow_neg, zpow_natCast, inv_eq_one_div, div_le_div_iff₀ hs hb']
      calc (1 : ℚ) * b = b := one_mul _
        _ ≤ ((a * 2 ^ ceilLog2F b a b : ℕ) : ℚ) := by exact_mod_cast hl
        _ = (a : ℚ) * 2 ^ ceilLog2F b a b := by push_cast; ring
    · have hab : a < b := by omega
      have hu' := hu hab
      rw [show (-(ceilLog2F b a b : ℤ) + 1) = (1 : ℤ) - (ceilLog2F b a b : ℤ) by ring,
        zpow_sub₀ (by norm_num : (2 : ℚ) ≠ 0), zpow_one, zpow_natCast,
        div_lt_div_iff₀ hb' (by positivity)]
      calc (a : ℚ) * 2 ^ ceilLog2F b a b = ((a * 2 ^ ceilLog2F b a b : ℕ) : ℚ) := by
            push_cast; ring
        _ < ((2 * b : ℕ) : ℚ) := by exact_mod_cast hu'
        _ = 2 * b := by push_cast; ring

/-- The floor-log2 of a positive rational brackets it between
consecutive powers of two. -/
theorem floatLog2_spec (q : ℚ) (hq : 0 < q) :
    (2 : ℚ) ^ floatLog2 q ≤ q ∧ q < 2 ^ (floatLog2 q + 1) := by
  have hnum : 1 ≤ q.num.toNat := by
    have h := Rat.num_pos.mpr hq
    omega
  have hden : 1 ≤ q.den := q.den_pos
  have h1 : ((q.num.toNat : ℕ) : ℤ) = q.num := Int.toNat_of_nonneg (Rat.num_pos.mpr hq).le
  have hq_eq : ((q.num.toNat : ℕ) : ℚ) / (q.den : ℚ) = q := by
    have h2 : ((q.num.toNat : ℕ) : ℚ) = (q.num : ℚ) := by exact_mod_cast h1
    rw [h2, Rat.num_div_den]
  have h := ratLog2_spec q.num.toNat q.den hnum hden
  rw [hq_eq] at h
  exact h

/-- Round-half-even never moves down by more than one half. -/
theorem le_roundHalfEven (x : ℚ) : x - 1 / 2 ≤ (roundHalfEven x : ℚ) := by
  unfold roundHalfEven
  have h1 : (⌊x⌋ : ℚ) ≤ x := Int.floor_le x
  have h2 : x < ⌊x⌋ + 1 := Int.lt_floor_add_one x
  split_ifs with hf hg he
  · linarith
  · push_cast
    linarith
  · linarith [not_lt.mp hg]
  · push_cast
    linarith

/-- Round-half-even never moves up by more than one half. -/
theorem roundHalfEven_le (x : ℚ) : (roundHalfEven x : ℚ) ≤ x + 1 / 2 := by
  unfold roundHalfEven
  have h1 : (⌊x⌋ : ℚ) ≤ x := Int.floor_le x
  split_ifs with hf hg he
  · linarith
  · push_cast
    linarith
  · linarith
  · push_cast
    linarith [not_lt.mp hf]

/-- Round-half-even is the identity on integers. -/
theorem roundHalfEven_intCast (n : ℤ) : roundHalfEven (n : ℚ) = n := by
  unfold roundHalfEven
  rw [Int.floor_intCast, sub_self]
  norm_num

/-- When rounding at scale 2^(-s) cannot cross the next integer above
the floor, the rounded value stays inside the floor's unit interval. -/
theorem round_scaled_bounds (q : ℚ) (k : ℤ) (s : ℕ)
    (hk : (k : ℚ) ≤ q)
    (hup : q * 2 ^ s + 1 / 2 < ((k : ℚ) + 1) * 2 ^ s) :
    (k : ℚ) ≤ (roundHalfEven (q * 2 ^ s) : ℚ) / 2 ^ s ∧
      (roundHalfEven (q * 2 ^ s) : ℚ) / 2 ^ s < (k : ℚ) + 1 := by
  have hs : (0 : ℚ) < 2 ^ s := by positivity
  have hlow : ((k * 2 ^ s : ℤ) : ℚ) ≤ (roundHalfEven (q * 2 ^ s) : ℚ) := by
    have h1 := le_roundHalfEven (q * 2 ^ s)
    have h2 : (k : ℚ) * 2 ^ s ≤ q * 2 ^ s := mul_le_mul_of_nonneg_right hk hs.le
    have h3 : ((k * 2 ^ s : ℤ) : ℚ) - 1 < (roundHalfEven (q * 2 ^ s) : ℚ) := by
      push_cast
      linarith
    have h4 : k * 2 ^ s - 1 < roundHalfEven (q * 2 ^ s) := by exact_mod_cast h3
    have h5 : k * 2 ^ s ≤ roundHalfEven (q * 2 ^ s) := by omega
    exact_mod_cast h5
  have hhigh : (roundHalfEven (q * 2 ^ s) : ℚ) < ((k : ℚ) + 1) * 2 ^ s := by
    have h1 := roundHalfEven_le (q * 2 ^ s)
    linarith
  constructor
  · rw [le_div_iff₀ hs]
    calc (k : ℚ) * 2 ^ s = ((k * 2 ^ s : ℤ) : ℚ) := by push_cast; ring
      _ ≤ _ := hlow
  · rw [div_lt_iff₀ hs]
    exact hhigh

/-- Correctly rounding a quotient of naturals to binary64 does not move
its floor as long as the numerator is at most 2^53: truncating the
double recovers exact natural division, and no overflow occurs. -/
theorem roundToDouble_div_spec (a b : ℕ) (ha : 0 < a) (hb : 0 < b)
    (hle : a ≤ 2 ^ 53) :
    0 ≤ roundToDouble ((a : ℚ) / b) ∧
      roundToDouble ((a : ℚ) / b) < 2 ^ 1024 ∧
      ⌊roundToDouble ((a : ℚ) / b)⌋ = ((a / b : ℕ) : ℤ) := by
  have hb' : (0 : ℚ) < b := by exact_mod_cast hb
  have ha' : (0 : ℚ) < a := by exact_mod_cast ha
  set q : ℚ := (a : ℚ) / b with hq_def
  have hq : 0 < q := div_pos ha' hb'
  have hq_eq : q * b = (a : ℚ) := by
    rw [hq_def]
    exact div_mul_cancel₀ _ hb'.ne'
  have hqa : q ≤ (a : ℚ) := div_le_self ha'.le (by exact_mod_cast hb)
  have hq53 : q ≤ 2 ^ 53 := hqa.trans (by exact_mod_cast hle)
  have hfloor : ⌊q⌋ = ((a / b : ℕ) : ℤ) := floor_natCast_div a b hb
  have he1 : (2 : ℚ) ^ floatLog2 q ≤ q := (floatLog2_spec q hq).1
  have he2 : q < (2 : ℚ) ^ (floatLog2 q + 1) := (floatLog2_spec q hq).2
  set e : ℤ := floatLog2 q with he_def
  have he53 : e ≤ 53 := by
    by_contra hcon
    push_neg at hcon
    have h54 : (2 : ℚ) ^ (54 : ℤ) ≤ 2 ^ e := zpow_le_zpow_right₀ (by norm_num) (by omega)
    have h54e : (2 : ℚ) ^ (54 : ℤ) = 2 ^ (54 : ℕ) := by
      rw [show (54 : ℤ) = ((54 : ℕ) : ℤ) by norm_num, zpow_natCast]
    have hcontra : (2 : ℚ) ^ (54 : ℕ) ≤ 2 ^ (53 : ℕ) := by
      calc (2 : ℚ) ^ (54 : ℕ) = 2 ^ (54 : ℤ) := h54e.symm
        _ ≤ 2 ^ e := h54
        _ ≤ q := he1
        _ ≤ 2 ^ (53 : ℕ) := hq53
    norm_num at hcontra
  set t : ℤ := floatExp q with ht_def
  have ht_eq : t = max (e - 52) (-1074) := by
    rw [ht_def, he_def]
    rfl
  have hR : roundToDouble q = (roundHalfEven (q / 2 ^ t) : ℚ) * 2 ^ t := by
    rw [ht_def]
    unfold roundToDouble
    rw [qpow2_eq]
  by_cases hint : ∃ n : ℤ, q / 2 ^ t = (n : ℚ)
  · obtain ⟨n, hn⟩ := hint
    have htz : (2 : ℚ) ^ t ≠ 0 := by positivity
    have hR2 : roundToDouble q = q := by
      rw [hR, hn, roundHalfEven_intCast, ← hn, div_mul_cancel₀ _ htz]
    refine ⟨by rw [hR2]; exact hq.le, ?_, by rw [hR2]; exact hfloor⟩
    rw [hR2]
    calc q ≤ 2 ^ (53 : ℕ) := hq53
      _ < 2 ^ 1024 := by norm_num
  · push_neg at hint
    have ht0 : t ≤ 0 := by
      by_contra hcon
      push_neg at hcon
      have hte : t = e - 52 := by
        rcases max_cases (e - 52) (-1074) with ⟨h1, _⟩ | ⟨h1, _⟩ <;> omega
      have he_eq : e = 53 := by omega
      have h53e : (2 : ℚ) ^ (53 : ℤ) = 2 ^ (53 : ℕ) := by
        rw [show (53 : ℤ) = ((53 : ℕ) : ℤ) by norm_num, zpow_natCast]
      have hq_pow : q = (2 : ℚ) ^ (53 : ℤ) := by
        refine le_antisymm (by rw [h53e]; exact hq53) ?_
        rw [← he_eq]
        exact he1
      refine hint (2 ^ 52) ?_
      have ht1 : t = 1 := by omega
      rw [hq_pow, ht1, zpow_one]
      rw [show ((2 ^ 52 : ℤ) : ℚ) = 2 ^ (52 : ℕ) by push_cast; ring]
      rw [show (53 : ℤ) = ((53 : ℕ) : ℤ) by norm_num, zpow_natCast]
      norm_num
    set s : ℕ := (-t).toNat with hs_def
    have hts : t = -(s : ℤ) := by
      rw [hs_def]
      omega
    have hpow : (2 : ℚ) ^ t = ((2 : ℚ) ^ s)⁻¹ := by
      rw [hts, zpow_neg, zpow_natCast]
    have hx : q / 2 ^ t = q * 2 ^ s := by
      rw [hpow, div_inv_eq_mul]
    set k : ℤ := ((a / b : ℕ) : ℤ) with hk_def
    have hk0 : 0 ≤ k := by
      rw [hk_def]
      exact Int.natCast_nonneg _
    have hk1 : (k : ℚ) ≤ q := by
      rw [← hfloor]
      exact Int.floor_le q
    have hkq : (k : ℚ) = ((a / b : ℕ) : ℚ) := by
      rw [hk_def]
      exact Int.cast_natCast _
    have hdvd : a % b ≠ 0 := by
      intro hr0
      have hnat : a = b * (a / b) := by
        have h := Nat.div_add_mod a b
        omega
      have hq_int : q = (k : ℚ) := by
        rw [hq_def, hkq, div_eq_iff hb'.ne', mul_comm]
        exact_mod_cast hnat
      refine hint (k * 2 ^ s) ?_
      rw [hx, hq_int]
      push_cast
      ring
    have hup : q * 2 ^ s + 1 / 2 < ((k : ℚ) + 1) * 2 ^ s := by
      by_contra hv
      push_neg at hv
      have hrb : a % b < b := Nat.mod_lt a hb
      have hkb : (k : ℚ) * b = (a : ℚ) - (a % b : ℕ) := by
        have hnat : b * (a / b) + a % b = a := Nat.div_add_mod a b
        have hcast : (b : ℚ) * ((a / b : ℕ) : ℚ) + ((a % b : ℕ) : ℚ) = a := by
          exact_mod_cast hnat
        rw [hkq]
        linarith
      have e1 : ((k : ℚ) + 1) * 2 ^ s * b = ((a : ℚ) - (a % b : ℕ) + b) * 2 ^ s := by
        have h1 : ((k : ℚ) + 1) * b = (a : ℚ) - (a % b : ℕ) + b := by
          rw [add_mul, hkb, one_mul]
        calc ((k : ℚ) + 1) * 2 ^ s * b = ((k : ℚ) + 1) * b * 2 ^ s := by ring
          _ = ((a : ℚ) - (a % b : ℕ) + b) * 2 ^ s := by rw [h1]
      have e2 : (q * 2 ^ s + 1 / 2) * b = (a : ℚ) * 2 ^ s + b / 2 := by
        calc (q * 2 ^ s + 1 / 2) * b = q * b * 2 ^ s + b / 2 := by ring
          _ = (a : ℚ) * 2 ^ s + b / 2 := by rw [hq_eq]
      have e3 : ((a : ℚ) - (a % b : ℕ) + b) * 2 ^ s ≤ (a : ℚ) * 2 ^ s + b / 2 := by
        rw [← e1, ← e2]
        exact mul_le_mul_of_nonneg_right hv hb'.le
      have hineq : 2 * ((b : ℚ) - (a % b : ℕ)) * 2 ^ s ≤ b := by nlinarith [e3]
      have hbr : (1 : ℚ) ≤ (b : ℚ) - (a % b : ℕ) := by
        have h1 : a % b + 1 ≤ b := hrb
        have h2 : ((a % b : ℕ) : ℚ) + 1 ≤ b := by exact_mod_cast h1
        linarith
      have hs_pos : (0 : ℚ) < 2 ^ s := by positivity
      have hb2s : (2 : ℚ) ^ (s + 1) ≤ b := by
        calc (2 : ℚ) ^ (s + 1) = 2 * 1 * 2 ^ s := by ring
          _ ≤ 2 * ((b : ℚ) - (a % b : ℕ)) * 2 ^ s := by nlinarith
          _ ≤ b := hineq
      rcases max_cases (e - 52) (-1074) with ⟨hmax, hcmp⟩ | ⟨hmax, hcmp⟩
      · have hse : (s : ℤ) = 52 - e := by omega
        have hq_ne : (2 : ℚ) ^ e ≠ q := by
          intro hq_pow
          refine hint (2 ^ 52) ?_
          rw [hx, ← hq_pow, ← zpow_natCast (2 : ℚ) s, ← zpow_add₀ (two_ne_zero)]
          rw [show e + (s : ℤ) = ((52 : ℕ) : ℤ) by omega, zpow_natCast]
          push_cast
          ring
        have hlt : (2 : ℚ) ^ e < q := lt_of_le_of_ne he1 hq_ne
        have hsum : e + ((s : ℤ) + 1) = ((53 : ℕ) : ℤ) := by omega
        have hcontra : (2 : ℚ) ^ (53 : ℕ) < (a : ℚ) := by
          calc (2 : ℚ) ^ (53 : ℕ) = (2 : ℚ) ^ ((53 : ℕ) : ℤ) := (zpow_natCast 2 53).symm
            _ = 2 ^ (e + ((s : ℤ) + 1)) := by rw [hsum]
            _ = 2 ^ e * 2 ^ ((s : ℤ) + 1) := zpow_add₀ two_ne_zero _ _
            _ = 2 ^ e * 2 ^ (s + 1 : ℕ) := by
                rw [show (s : ℤ) + 1 = ((s + 1 : ℕ) : ℤ) by push_cast; ring, zpow_natCast]
            _ ≤ 2 ^ e * b := mul_le_mul_of_nonneg_left hb2s (zpow_pos (by norm_num) e).le
            _ < q * b := mul_lt_mul_of_pos_right hlt hb'
            _ = (a : ℚ) := hq_eq
        have hle' : (a : ℚ) ≤ 2 ^ (53 : ℕ) := by exact_mod_cast hle
        linarith
      · have hs1074 : s = 1074 := by omega
        have he_small : e + 1 ≤ -1022 := by omega
        have hq_small : q < (2 : ℚ) ^ (-1022 : ℤ) :=
          lt_of_lt_of_le he2 (zpow_le_zpow_right₀ (by norm_num) he_small)
        have hk_zero : k = 0 := by
          have h1 : (2 : ℚ) ^ (-1022 : ℤ) ≤ 1 := by
            have h := zpow_le_zpow_right₀ (a := (2 : ℚ)) (by norm_num)
              (show (-1022 : ℤ) ≤ 0 by norm_num)
            simpa using h
          have h2 : (k : ℚ) < 1 := lt_of_le_of_lt hk1 (lt_of_lt_of_le hq_small h1)
          have h3 : k < 1 := by exact_mod_cast h2
          omega
        rw [hk_zero] at hv
        push_cast at hv
        have hq2s : q * 2 ^ s < (2 : ℚ) ^ (52 : ℕ) := by
          calc q * 2 ^ s < (2 : ℚ) ^ (-1022 : ℤ) * 2 ^ s :=
                mul_lt_mul_of_pos_right hq_small (by positivity)
            _ = (2 : ℚ) ^ ((-1022 : ℤ) + s) := by
                rw [← zpow_natCast (2 : ℚ) s, ← zpow_add₀ two_ne_zero]
            _ = (2 : ℚ) ^ ((52 : ℕ) : ℤ) := by
                rw [show (-1022 : ℤ) + s = ((52 : ℕ) : ℤ) by omega]
            _ = (2 : ℚ) ^ (52 : ℕ) := zpow_natCast 2 52
        have hbig : (2 : ℚ) ^ (1074 : ℕ) ≤ q * 2 ^ s + 1 / 2 := by
          have hs2 : (2 : ℚ) ^ s = 2 ^ (1074 : ℕ) := by rw [hs1074]
          linarith [hv]
        have hfalse : (2 : ℚ) ^ (1074 : ℕ) < 2 ^ (52 : ℕ) + 1 / 2 := by linarith
        norm_num at hfalse
    obtain ⟨hlow, hhigh⟩ := round_scaled_bounds q k s hk1 hup
    have hR2 : roundToDouble q = (roundHalfEven (q * 2 ^ s) : ℚ) / 2 ^ s := by
      rw [hR, hx, hpow, ← div_eq_mul_inv]
    refine ⟨?_, ?_, ?_⟩
    · rw [hR2]
      have hkq : (0 : ℚ) ≤ (k : ℚ) := by exact_mod_cast hk0
      linarith
    · rw [hR2]
      have hab : a / b ≤ 2 ^ 53 := le_trans (Nat.div_le_self a b) hle
      have hk53 : (k : ℚ) ≤ 2 ^ (53 : ℕ) := by
        rw [hk_def]
        exact_mod_cast hab
      calc (roundHalfEven (q * 2 ^ s) : ℚ) / 2 ^ s < (k : ℚ) + 1 := hhigh
        _ ≤ 2 ^ (53 : ℕ) + 1 := by linarith
        _ < 2 ^ 1024 := by norm_num
    · rw [hR2, Int.floor_eq_iff]
      exact ⟨hlow, hhigh⟩

/-- Division pyDivPos with numerator at most 2^53: non-negative, below the
overflow cutoff, and flooring it is exact natural division. -/
theorem pyDivPos_spec (a b : ℕ) (hb : 0 < b) (hle : a ≤ 2 ^ 53) :
    0 ≤ pyDivPos a b ∧ pyDivPos a b < 2 ^ 1024 ∧
      ⌊pyDivPos a b⌋ = ((a / b : ℕ) : ℤ) := by
  rcases Nat.eq_zero_or_pos a with ha | ha
  · subst ha
    unfold pyDivPos
    rw [if_pos rfl]
    exact ⟨le_refl 0, by norm_num, by simp⟩
  · unfold pyDivPos
    rw [if_neg ha.ne']
    exact roundToDouble_div_spec a b ha hb hle

/-- Division pyTrueDiv on a non-negative numerator at most 2^53 never
overflows, and Python's `int()` of the resulting double is exact
natural division. -/
theorem pyTrueDiv_spec (a b : ℕ) (hb : 0 < b) (hle : a ≤ 2 ^ 53) :
    pyTrueDiv (a : ℤ) b = .ok (pyDivPos a b) ∧
      pyInt (pyDivPos a b) = ((a / b : ℕ) : ℤ) := by
  obtain ⟨h0, h1024, hfloor⟩ := pyDivPos_spec a b hb hle
  have hsigned : pyDivSigned (a : ℤ) b = pyDivPos a b := by
    unfold pyDivSigned
    rw [if_neg (not_lt.mpr (Int.natCast_nonneg a)), Int.natAbs_ofNat]
  constructor
  · unfold pyTrueDiv
    rw [hsigned, abs_of_nonneg h0, twoPow1024_cast, if_neg (not_le.mpr h1024)]
  · unfold pyInt
    rw [if_neg (not_lt.mpr h0), hfloor]

/-- The aggregator on a non-empty all-non-negative input whose sum is at
most 2^53: no exception, and the exact sum / truncated average /
length. -/
theorem process_data_ok (S : List ℤ) (hne : S ≠ []) (hnn : ∀ n ∈ S, 0 ≤ n)
    (hsum : S.sum ≤ 2 ^ 53) :
    process_data S =
      .ok ⟨S.sum, ((S.sum.toNat / S.length : ℕ) : ℤ), S.length⟩ := by
  have hsum0 : 0 ≤ S.sum := List.sum_nonneg hnn
  have hlen : 0 < S.length := List.length_pos.mpr hne
  have hEmpty : S.isEmpty = false := by
    cases S with
    | nil => exact absurd rfl hne
    | cons a l => rfl
  have hcast : ((S.sum.toNat : ℕ) : ℤ) = S.sum := Int.toNat_of_nonneg hsum0
  have hle' : S.sum.toNat ≤ 2 ^ 53 := by
    rw [Int.toNat_le]
    exact_mod_cast hsum
  obtain ⟨hdiv, hint⟩ := pyTrueDiv_spec S.sum.toNat S.length hlen hle'
  rw [hcast] at hdiv
  unfold process_data calculate_sum
  rw [hEmpty, if_neg (by simp), hdiv]
  simp only [hint]

/-- The integer 2^53 + 1 rounds to the double 2^53: the quotient ties between the
adjacent doubles 2^53 and 2^53 + 2 and resolves to the even one. -/
theorem roundToDouble_pow53succ :
    roundToDouble (9007199254740993 : ℚ) = 9007199254740992 := by
  have hfe : floatExp (9007199254740993 : ℚ) = 1 := by decide
  have hq2 : qpow2 1 = 2 := by rw [qpow2_eq, zpow_one]
  have hfloor : ⌊(9007199254740993 : ℚ) / 2⌋ = 4503599627370496 := by
    rw [Int.floor_eq_iff]
    norm_num
  have hround : roundHalfEven ((9007199254740993 : ℚ) / 2) = 4503599627370496 := by
    unfold roundHalfEven
    rw [hfloor, if_neg (by norm_num), if_neg (by norm_num),
      if_pos ⟨2251799813685248, by norm_num⟩]
  unfold roundToDouble
  rw [hfe, hq2, hround]
  norm_num

/-- At the list [2^53 + 1], the aggregator truncates that double, so it
reports average 2^53 while the integer quotient is 2^53 + 1. -/
theorem process_data_pow53succ :
    process_data [(9007199254740993 : ℤ)] =
      .ok ⟨9007199254740993, 9007199254740992, 1⟩ := by
  have hsigned : pyDivSigned (9007199254740993 : ℤ) 1 = 9007199254740992 := by
    unfold pyDivSigned
    rw [if_neg (by norm_num),
      show (9007199254740993 : ℤ).natAbs = (9007199254740993 : ℕ) from rfl]
    unfold pyDivPos
    rw [if_neg (by norm_num),
      show ((9007199254740993 : ℕ) : ℚ) / ((1 : ℕ) : ℚ) = (9007199254740993 : ℚ)
        by norm_num]
    exact roundToDouble_pow53succ
  have hdiv : pyTrueDiv (9007199254740993 : ℤ) 1 = .ok (9007199254740992 : ℚ) := by
    unfold pyTrueDiv
    rw [hsigned, abs_of_nonneg (by norm_num : (0 : ℚ) ≤ 9007199254740992),
      if_neg (by simp only [twoPow1024]; norm_num)]
  have hpi : pyInt (9007199254740992 : ℚ) = 9007199254740992 := by
    unfold pyInt
    rw [if_neg (by norm_num), Int.floor_eq_iff]
    norm_num
  have hs : calculate_sum [(9007199254740993 : ℤ)] = 9007199254740993 := by
    unfold calculate_sum
    simp
  unfold process_data
  rw [show ([(9007199254740993 : ℤ)]).isEmpty = false from rfl, if_neg (by simp),
    hs, show ([(9007199254740993 : ℤ)]).length = 1 from rfl, hdiv]
  simp only [hpi, hs]

set_option exponentiation.threshold 1200 in
/-- int / int true division overflows at 2^1024 / 1: the correctly
rounded quotient is 2^1024 itself, beyond the largest double, so the
aggregator raises OverflowError on [2^1024]. -/
theorem process_data_overflow :
    process_data [(twoPow1024 : ℤ)] = .error overflowError := by
  have hfe : floatExp ((twoPow1024 : ℕ) : ℚ) = 972 := by decide
  have hq972 : qpow2 972 = 2 ^ (972 : ℕ) := by
    rw [qpow2_eq, show (972 : ℤ) = ((972 : ℕ) : ℤ) by norm_num, zpow_natCast]
  have hx : ((twoPow1024 : ℕ) : ℚ) / 2 ^ (972 : ℕ) = ((2 ^ 52 : ℤ) : ℚ) := by
    rw [div_eq_iff (by positivity), twoPow1024_eq]
    push_cast
    norm_num
  have hrd : roundToDouble ((twoPow1024 : ℕ) : ℚ) = ((twoPow1024 : ℕ) : ℚ) := by
    unfold roundToDouble
    rw [hfe, hq972, hx, roundHalfEven_intCast, twoPow1024_eq]
    push_cast
    norm_num
  have hsigned : pyDivSigned ((twoPow1024 : ℕ) : ℤ) 1 = ((twoPow1024 : ℕ) : ℚ) := by
    unfold pyDivSigned
    rw [if_neg (not_lt.mpr (Int.natCast_nonneg _)), Int.natAbs_ofNat]
    unfold pyDivPos
    rw [if_neg (by simp only [twoPow1024]; norm_num),
      show ((twoPow1024 : ℕ) : ℚ) / ((1 : ℕ) : ℚ) = ((twoPow1024 : ℕ) : ℚ) by norm_num]
    exact hrd
  have hdiv : pyTrueDiv ((twoPow1024 : ℕ) : ℤ) 1 = .error overflowError := by
    unfold pyTrueDiv
    rw [hsigned, abs_of_nonneg (Nat.cast_nonneg twoPow1024), if_pos (le_refl _)]
  unfold process_data
  rw [show ([(twoPow1024 : ℤ)]).isEmpty = false from rfl, if_neg (by simp),
    show calculate_sum [(twoPow1024 : ℤ)] = ((twoPow1024 : ℕ) : ℤ) by
      unfold calculate_sum; simp,
    show ([(twoPow1024 : ℤ)]).length = 1 from rfl, hdiv]


/-- The validator, at the level of booleans. -/
theorem validate_input_eq_false_iff (numbers : List ℤ) :
    validate_input numbers = false ↔
      numbers = [] ∨ ∃ n ∈ numbers, n < 0 := by
  unfold validate_input
  cases hm : numbers.isEmpty <;>
    cases ha : numbers.any fun n => n < 0 <;>
      simp_all [List.isEmpty_iff, List.any_eq_true]

/-- A validated list is non-empty. -/
theorem validate_input_ne_nil {numbers : List ℤ}
    (h : validate_input numbers = true) : numbers ≠ [] := by
  intro hnil
  subst hnil
  exact absurd h (by decide)

/-! ## Claims -/

/-- C1 (code bug witness): on an empty body — and likewise on a body
with a negative number — the endpoint does NOT answer 400 with detail
"Invalid input: empty list or negative numbers".  The HTTPException(400)
is raised inside the handler's own try block, caught by
`except Exception as e`, and re-raised as a 500 whose detail wraps the
str() of the 400 exception. -/
theorem claim_C1_invalid_input_actual_response :
    calculate_endpoint [] =
        .httpError 500 "Calculation failed: 400: Invalid input: empty list or negative numbers" ∧
      calculate_endpoint [] ≠ .httpError 400 invalidInputDetail ∧
      calculate_endpoint [-1, 2, 3] =
        .httpError 500 "Calculation failed: 400: Invalid input: empty list or negative numbers" := by
  refine ⟨?_, ?_, ?_⟩ <;> decide

/-- C2 (amended): for every non-empty sequence of non-negative integers
whose sum is at most 2^53, the aggregator returns total equal to the
sum, count equal to the length, and average equal to the truncated
integer quotient sum / length.  (Beyond 2^53 the binary64 rounding of
total / len can move the average off the integer quotient, see the
counterexample.) -/
theorem claim_C2_aggregator_exact_below_2pow53 (S : List ℤ) (hne : S ≠ [])
    (hnn : ∀ n ∈ S, 0 ≤ n) (hsum : S.sum ≤ 2 ^ 53) :
    process_data S =
      .ok ⟨S.sum, ((S.sum.toNat / S.length : ℕ) : ℤ), S.length⟩ :=
  process_data_ok S hne hnn hsum

/-- C2 witness: the amended claim applied at [1, 2, 3]. -/
theorem claim_C2_witness : process_data [1, 2, 3] = .ok ⟨6, 2, 3⟩ := by
  have h := claim_C2_aggregator_exact_below_2pow53 [1, 2, 3] (by decide) (by decide)
    (by decide)
  exact h.trans (by decide)

/-- C2 counterexample: on [2^53 + 1] the aggregator succeeds but its
average is the rounded double 2^53, not the integer quotient
2^53 + 1 = sum / len; the claim fails as stated for sums beyond
2^53. -/
theorem claim_C2_counterexample :
    process_data [(9007199254740993 : ℤ)] =
        .ok ⟨9007199254740993, 9007199254740992, 1⟩ ∧
      (9007199254740992 : ℤ) ≠
        (((9007199254740993 : ℤ).toNat / [(9007199254740993 : ℤ)].length : ℕ) : ℤ) :=
  ⟨process_data_pow53succ, by decide⟩

/-- C5: every exception raised by the aggregation of a validated input
is answered with HTTP 500 and detail "Calculation failed: <message>",
where <message> is the str() of the exception. -/
theorem claim_C5_aggregation_error_maps_to_500 (numbers : List ℤ) (e : PyErr)
    (hv : validate_input numbers = true)
    (he : process_data numbers = .error e) :
    calculate_endpoint numbers =
      .httpError 500 ("Calculation failed: " ++ e.msg) := by
  simp only [calculate_endpoint, calculate_endpoint_with, runAsync_process_data_async,
    hv, he]
  simp

/-- C5 witness: the aggregation of [2^1024] raises OverflowError, and
the endpoint answers 500 with the wrapped message. -/
theorem claim_C5_witness :
    calculate_endpoint [(twoPow1024 : ℤ)] =
      .httpError 500
        "Calculation failed: integer division result too large for a float" := by
  have h := claim_C5_aggregation_error_maps_to_500 [(twoPow1024 : ℤ)] overflowError
    (by decide) process_data_overflow
  exact h.trans (by decide)

/-- C8: POST /calculate with body [1, 2, 3, 4] answers with the 200
success envelope around total 10, average 2, count 4. -/
theorem claim_C8_example_request :
    calculate_endpoint [1, 2, 3, 4] = .success ⟨10, 2, 4⟩ := by
  have hp : process_data [1, 2, 3, 4] = .ok ⟨10, 2, 4⟩ := by
    have h := process_data_ok [1, 2, 3, 4] (by decide) (by decide) (by decide)
    exact h.trans (by decide)
  have hv : validate_input [1, 2, 3, 4] = true := by decide
  simp only [calculate_endpoint, calculate_endpoint_with, runAsync_process_data_async,
    hv, hp]
  simp

/-- C3: the validator returns false exactly on an empty list or a list
with a negative element, and true otherwise. -/
theorem claim_C3_validator_characterisation (numbers : List ℤ) :
    (validate_input numbers = false ↔ numbers = [] ∨ ∃ n ∈ numbers, n < 0) ∧
      (validate_input numbers = true ↔ numbers ≠ [] ∧ ∀ n ∈ numbers, 0 ≤ n) := by
  have h := validate_input_eq_false_iff numbers
  refine ⟨h, ?_, ?_⟩
  · intro ht
    have hne : ¬(numbers = [] ∨ ∃ n ∈ numbers, n < 0) := by
      rw [← h, ht]
      simp
    push_neg at hne
    exact hne
  · rintro ⟨h1, h2⟩
    cases hb : validate_input numbers
    · rcases h.mp hb with h3 | ⟨n, hn, hlt⟩
      · exact absurd h3 h1
      · exact absurd (h2 n hn) (not_le.mpr hlt)
    · rfl

/-- C3 witness: the characterisation applied at a concrete rejected
input. -/
theorem claim_C3_witness : validate_input [-1, 2, 3] = false :=
  (claim_C3_validator_characterisation [-1, 2, 3]).1.mpr
    (Or.inr ⟨-1, by decide, by decide⟩)

/-- C4: the aggregation step appears in the endpoint's call trace only
when the validator accepted the input; in particular the input is then
non-empty, so no average of an empty sequence is computed on that
path. -/
theorem claim_C4_aggregation_only_when_validated (numbers : List ℤ)
    (h : CallEv.aggregateCall ∈ endpointCalls numbers) :
    validate_input numbers = true ∧ numbers ≠ [] := by
  unfold endpointCalls at h
  by_cases hv : validate_input numbers
  · exact ⟨hv, validate_input_ne_nil hv⟩
  · rw [if_neg hv] at h
    simp at h

/-- C4 witness: a request that does reach aggregation. -/
theorem claim_C4_witness : validate_input [1] = true ∧ [1] ≠ ([] : List ℤ) :=
  claim_C4_aggregation_only_when_validated [1] (by decide)

/-- C6: the response to a request depends only on the body — the only
module state the handler touches is the append-only log, and neither
the prior log state nor repeating the call changes the response. -/
theorem claim_C6_handler_deterministic (log1 log2 : List String) (numbers : List ℤ) :
    (handle_request log1 numbers).1 = (handle_request log2 numbers).1 ∧
      (handle_request (handle_request log1 numbers).2 numbers).1 =
        (handle_request log1 numbers).1 := ⟨rfl, rfl⟩

/-- C7: erasing the simulated `asyncio.sleep(0.1)` suspension from
`process_data_async` leaves the produced result unchanged (it is the
plain aggregation value); only the suspended time differs. -/
theorem claim_C7_sleep_has_no_effect (data : List ℤ) :
    (runAsync (dropSleeps (process_data_async data))).2 =
        (runAsync (process_data_async data)).2 ∧
      (runAsync (process_data_async data)).2 = process_data data ∧
      (runAsync (process_data_async data)).1 = 1 / 10 ∧
      (runAsync (dropSleeps (process_data_async data))).1 = 0 := by
  refine ⟨rfl, rfl, ?_, rfl⟩
  show (0 : ℚ) + 1 / 10 = 1 / 10
  norm_num

/-- C9: called directly on the empty list, the aggregator raises
nothing and returns total 0, average 0, count 0 — the division is
guarded by the `if data` conditional expression. -/
theorem claim_C9_aggregator_total_on_empty :
    process_data [] = .ok ⟨0, 0, 0⟩ := by decide

/-- C10: the validator, the summation and the aggregator leave the heap
— in particular the list object they receive — unchanged. -/
theorem claim_C10_no_mutation (heap : PyHeap) (r : ℕ) :
    (validate_input_st heap r).2 = heap ∧
      (calculate_sum_st heap r).2 = heap ∧
      (process_data_st heap r).2 = heap ∧
      heapRead (validate_input_st heap r).2 r = heapRead heap r :=
  ⟨rfl, rfl, rfl, rfl⟩

end SimpleFastapiExample
